import Mathlib

/-!
Verification of the FlowCyPy C++ signal-processing core.

Signals (C++ vectors of double) are modelled as lists of rationals; array
indices and window bounds (C++ int) as integers; size_t casts are made
explicit.  Each definition below is a direct transcription of the named
C++ function.
-/

namespace FlowCyPy

/-- Model of a C++ static_cast from int to size_t (64-bit two-complement). -/
def toSizeT (m : ℤ) : ℕ := (m % 18446744073709551616).toNat

/-- From TriggeringSystem::find_trigger_indices (triggering_system.cpp):
for i in [1, n), record i-1 whenever signal[i-1] <= threshold < signal[i]. -/
def find_trigger_indices (sig : List ℚ) (threshold : ℚ) : List ℤ :=
  (List.range sig.length).filterMap (fun i =>
    if 1 ≤ i ∧ sig.getD (i - 1) 0 ≤ threshold ∧ threshold < sig.getD i 0 then
      some ((i : ℤ) - 1)
    else none)

/-- Loop body of TriggeringSystem::apply_buffer_constraints: walk the trigger
indices keeping last_end; a candidate [idx - pre, idx + post] is skipped when
out of bounds, accepted when start > last_end, and the loop breaks once
max_triggers (> 0) windows are accepted. -/
def abc_loop (pre post n maxT : ℤ) :
    List ℤ → ℤ → List (ℤ × ℤ) → List (ℤ × ℤ)
  | [], _, acc => acc
  | idx :: rest, lastEnd, acc =>
    let start := idx - pre
    let e := idx + post
    if start < 0 ∨ n ≤ e then
      abc_loop pre post n maxT rest lastEnd acc
    else if lastEnd < start then
      let acc2 := acc ++ [(start, e)]
      if 0 < maxT ∧ maxT ≤ (acc2.length : ℤ) then acc2
      else abc_loop pre post n maxT rest e acc2
    else if 0 < maxT ∧ maxT ≤ (acc.length : ℤ) then acc
    else abc_loop pre post n maxT rest lastEnd acc

/-- TriggeringSystem::apply_buffer_constraints (triggering_system.cpp). -/
def apply_buffer_constraints (idxs : List ℤ) (pre post n maxT : ℤ) :
    List (ℤ × ℤ) :=
  abc_loop pre post n maxT idxs (-1) []

/-- TriggeringSystem::run_fixed_window: the wrapper passes pre_buffer - 1 and
post_buffer to apply_buffer_constraints. -/
def run_fixed_window (sig : List ℚ) (threshold : ℚ)
    (pre_buffer post_buffer max_triggers : ℤ) : List (ℤ × ℤ) :=
  apply_buffer_constraints (find_trigger_indices sig threshold)
    (pre_buffer - 1) post_buffer (sig.length : ℤ) max_triggers

/-- The C++ while-loop advancing j while j < n and signal[j] > threshold,
used by run_dynamic (falling-edge search) and by run_dynamic_single_threshold
(both for the upper-threshold run and the lower-threshold hysteresis run). -/
def run_end_above (sig : List ℚ) (threshold : ℚ) (j : ℕ) : ℕ :=
  if h : j < sig.length ∧ threshold < sig.getD j 0 then
    run_end_above sig threshold (j + 1)
  else j
termination_by sig.length - j
decreasing_by omega

theorem run_end_above_ge (sig : List ℚ) (threshold : ℚ) (j : ℕ) :
    j ≤ run_end_above sig threshold j := by
  unfold run_end_above
  split
  · exact le_trans (Nat.le_succ j) (run_end_above_ge sig threshold (j + 1))
  · exact le_refl j
termination_by sig.length - j
decreasing_by omega

theorem run_end_above_gt (sig : List ℚ) (threshold : ℚ) (j : ℕ)
    (hj : j < sig.length) (hv : threshold < sig.getD j 0) :
    j + 1 ≤ run_end_above sig threshold j := by
  rw [run_end_above]
  rw [dif_pos ⟨hj, hv⟩]
  exact run_end_above_ge sig threshold (j + 1)

/-- Loop body of TriggeringSystem::run_dynamic (triggering_system.cpp):
on a rising edge at i, start = max(i - pre_buffer, 0), advance j through the
above-threshold run, end = min(j - 1 + post_buffer, n - 1), accept when
start > last_end, break once max_triggers (> 0) windows are accepted, and
resume the scan at i = j + 1. -/
def run_dynamic_loop (sig : List ℚ) (threshold : ℚ) (pre post maxT : ℤ) :
    ℕ → ℤ → List (ℤ × ℤ) → List (ℤ × ℤ)
  | i, lastEnd, acc =>
    if h : i < sig.length then
      if hc : sig.getD (i - 1) 0 ≤ threshold ∧ threshold < sig.getD i 0 then
        let start := max ((i : ℤ) - pre) 0
        let j := run_end_above sig threshold i
        let e := min ((j : ℤ) - 1 + post) ((sig.length : ℤ) - 1)
        if lastEnd < start then
          let acc2 := acc ++ [(start, e)]
          if 0 < maxT ∧ maxT ≤ (acc2.length : ℤ) then acc2
          else run_dynamic_loop sig threshold pre post maxT (j + 1) e acc2
        else if 0 < maxT ∧ maxT ≤ (acc.length : ℤ) then acc
        else run_dynamic_loop sig threshold pre post maxT (j + 1) lastEnd acc
      else run_dynamic_loop sig threshold pre post maxT (i + 1) lastEnd acc
    else acc
termination_by i => sig.length - i
decreasing_by
  · have := run_end_above_gt sig threshold i h hc.2; omega
  · have := run_end_above_gt sig threshold i h hc.2; omega
  · omega

/-- TriggeringSystem::run_dynamic (triggering_system.cpp, scheme
"dynamic-simple"): scan from i = 1 with last_end = -1. -/
def run_dynamic (sig : List ℚ) (threshold : ℚ)
    (pre_buffer post_buffer max_triggers : ℤ) : List (ℤ × ℤ) :=
  run_dynamic_loop sig threshold pre_buffer post_buffer max_triggers 1 (-1) []

/-- Debounce counting loop of run_dynamic_single_threshold: while j < n and
signal[j] > threshold, increment count and j, breaking early once
count >= min_window_duration (as size_t); returns (count, j). -/
def debounce_scan (sig : List ℚ) (threshold : ℚ) (mwdN : ℕ) :
    ℕ → ℕ → ℕ × ℕ
  | j, count =>
    if h : j < sig.length ∧ threshold < sig.getD j 0 then
      if mwdN ≤ count + 1 then (count + 1, j + 1)
      else debounce_scan sig threshold mwdN (j + 1) (count + 1)
    else (count, j)
termination_by j => sig.length - j
decreasing_by omega

theorem debounce_scan_ge (sig : List ℚ) (threshold : ℚ) (mwdN : ℕ)
    (j count : ℕ) : j ≤ (debounce_scan sig threshold mwdN j count).2 := by
  rw [debounce_scan]
  split
  · split
    · exact Nat.le_succ j
    · exact le_trans (Nat.le_succ j)
        (debounce_scan_ge sig threshold mwdN (j + 1) (count + 1))
  · exact le_refl j
termination_by sig.length - j
decreasing_by omega

/-- Loop body of TriggeringSystem::run_dynamic_single_threshold
(triggering_system.cpp): on a rising edge at i, optionally debounce (reject
the crossing and resume at i = j + 1 when the above-threshold run is shorter
than min_window_duration), otherwise advance j to the end of the
above-threshold run, extend k through the above-lower_threshold run,
start = max(i - pre_buffer, 0), end = min(k - 1 + post_buffer, n - 1),
accept when start > last_end, break on max_triggers, resume at i = k + 1. -/
def run_dyn_single_loop (sig : List ℚ) (threshold lower : ℚ)
    (pre post maxT : ℤ) (debounce : Bool) (mwd : ℤ) :
    ℕ → ℤ → List (ℤ × ℤ) → List (ℤ × ℤ)
  | i, lastEnd, acc =>
    if h : i < sig.length then
      if hc : sig.getD (i - 1) 0 ≤ threshold ∧ threshold < sig.getD i 0 then
        if hdb : debounce = true ∧ mwd ≠ -1 then
          let scan := debounce_scan sig threshold (toSizeT mwd) i 0
          if scan.1 < toSizeT mwd then
            run_dyn_single_loop sig threshold lower pre post maxT debounce mwd
              (scan.2 + 1) lastEnd acc
          else
            let j := scan.2
            let start := max ((i : ℤ) - pre) 0
            let k := run_end_above sig lower j
            let e := min ((k : ℤ) - 1 + post) ((sig.length : ℤ) - 1)
            if lastEnd < start then
              let acc2 := acc ++ [(start, e)]
              if 0 < maxT ∧ maxT ≤ (acc2.length : ℤ) then acc2
              else run_dyn_single_loop sig threshold lower pre post maxT
                debounce mwd (k + 1) e acc2
            else if 0 < maxT ∧ maxT ≤ (acc.length : ℤ) then acc
            else run_dyn_single_loop sig threshold lower pre post maxT
              debounce mwd (k + 1) lastEnd acc
        else
          let j := run_end_above sig threshold i
          let start := max ((i : ℤ) - pre) 0
          let k := run_end_above sig lower j
          let e := min ((k : ℤ) - 1 + post) ((sig.length : ℤ) - 1)
          if lastEnd < start then
            let acc2 := acc ++ [(start, e)]
            if 0 < maxT ∧ maxT ≤ (acc2.length : ℤ) then acc2
            else run_dyn_single_loop sig threshold lower pre post maxT
              debounce mwd (k + 1) e acc2
          else if 0 < maxT ∧ maxT ≤ (acc.length : ℤ) then acc
          else run_dyn_single_loop sig threshold lower pre post maxT
            debounce mwd (k + 1) lastEnd acc
      else run_dyn_single_loop sig threshold lower pre post maxT debounce mwd
        (i + 1) lastEnd acc
    else acc
termination_by i => sig.length - i
decreasing_by
  · have := debounce_scan_ge sig threshold (toSizeT mwd) i 0; omega
  · have h1 := debounce_scan_ge sig threshold (toSizeT mwd) i 0
    have h2 := run_end_above_ge sig lower
      (debounce_scan sig threshold (toSizeT mwd) i 0).2
    omega
  · have h1 := debounce_scan_ge sig threshold (toSizeT mwd) i 0
    have h2 := run_end_above_ge sig lower
      (debounce_scan sig threshold (toSizeT mwd) i 0).2
    omega
  · have h1 := run_end_above_gt sig threshold i h hc.2
    have h2 := run_end_above_ge sig lower (run_end_above sig threshold i)
    omega
  · have h1 := run_end_above_gt sig threshold i h hc.2
    have h2 := run_end_above_ge sig lower (run_end_above sig threshold i)
    omega
  · omega

/-- TriggeringSystem::run_dynamic_single_threshold (triggering_system.cpp,
scheme "dynamic"): an absent lower_threshold (NaN sentinel in C++) defaults
to threshold; scan from i = 1 with last_end = -1. -/
def run_dynamic_single_threshold (sig : List ℚ) (threshold : ℚ)
    (lower_threshold : Option ℚ) (pre_buffer post_buffer max_triggers : ℤ)
    (debounce_enabled : Bool) (min_window_duration : ℤ) : List (ℤ × ℤ) :=
  run_dyn_single_loop sig threshold (lower_threshold.getD threshold)
    pre_buffer post_buffer max_triggers debounce_enabled min_window_duration
    1 (-1) []

/-- Refinement side: the fixed-window acceptance procedure exactly as the
spec words it, parametrized by the candidate-window map so that the claimed
and the amended candidate formulas can both be stated: for each crossing in
order take the candidate window, discard it entirely when start < 0 or
end >= n, otherwise accept iff start > last_accepted_end (updating
last_accepted_end to end), and stop once max_triggers (> 0) windows are
accepted. -/
def fixed_window_words_loop (cand : ℤ → ℤ × ℤ) (n maxT : ℤ) :
    List ℤ → ℤ → List (ℤ × ℤ) → List (ℤ × ℤ)
  | [], _, acc => acc
  | idx :: rest, lastEnd, acc =>
    let w := cand idx
    if w.1 < 0 ∨ n ≤ w.2 then
      fixed_window_words_loop cand n maxT rest lastEnd acc
    else if lastEnd < w.1 then
      let acc2 := acc ++ [w]
      if 0 < maxT ∧ maxT ≤ (acc2.length : ℤ) then acc2
      else fixed_window_words_loop cand n maxT rest w.2 acc2
    else fixed_window_words_loop cand n maxT rest lastEnd acc

/-- The fixed-window run as the claim words it: candidate window
[idx - pre_buffer - 1, idx + post_buffer] for each rising-edge index idx. -/
def fixed_window_claimed (sig : List ℚ) (threshold : ℚ)
    (pre_buffer post_buffer max_triggers : ℤ) : List (ℤ × ℤ) :=
  fixed_window_words_loop (fun idx => (idx - pre_buffer - 1, idx + post_buffer))
    (sig.length : ℤ) max_triggers (find_trigger_indices sig threshold) (-1) []

/-- The fixed-window run with the amended candidate formula
[idx - pre_buffer + 1, idx + post_buffer]. -/
def fixed_window_amended (sig : List ℚ) (threshold : ℚ)
    (pre_buffer post_buffer max_triggers : ℤ) : List (ℤ × ℤ) :=
  fixed_window_words_loop (fun idx => (idx - pre_buffer + 1, idx + post_buffer))
    (sig.length : ℤ) max_triggers (find_trigger_indices sig threshold) (-1) []

theorem abc_loop_eq_words_loop (pre post n maxT : ℤ) (idxs : List ℤ)
    (lastEnd : ℤ) (acc : List (ℤ × ℤ))
    (hacc : 0 < maxT → (acc.length : ℤ) < maxT) :
    abc_loop pre post n maxT idxs lastEnd acc =
      fixed_window_words_loop (fun idx => (idx - pre, idx + post)) n maxT
        idxs lastEnd acc := by
  induction idxs generalizing lastEnd acc with
  | nil => rfl
  | cons idx rest ih =>
    simp only [abc_loop, fixed_window_words_loop]
    split
    · exact ih lastEnd acc hacc
    · split
      · split
        · rfl
        · rename_i hbreak
          refine ih (idx + post) (acc ++ [(idx - pre, idx + post)]) ?_
          intro hpos
          simp only [List.length_append, List.length_cons, List.length_nil] at hbreak ⊢
          push_neg at hbreak
          exact_mod_cast hbreak hpos
      · rw [if_neg]
        · exact ih lastEnd acc hacc
        · intro hb
          exact absurd (hacc hb.1) (not_lt.mpr hb.2)

/-- C2 counterexample: on signal [0,2,0] with threshold 1, pre_buffer = 1,
post_buffer = 1, the procedure described by the claim (candidate start
idx - pre_buffer - 1) yields no window, while run_fixed_window accepts one. -/
theorem C2_counterexample :
    fixed_window_claimed [0, 2, 0] 1 1 1 (-1) ≠
      run_fixed_window [0, 2, 0] 1 1 1 (-1) := by decide

/-- C2 (amended): in the fixed-window run, each rising-edge crossing recorded
at idx = i-1 gives the candidate window [idx - pre_buffer + 1,
idx + post_buffer]; the candidate is discarded entirely when start < 0 or
end >= n, and otherwise accepted iff start > last_accepted_end, which is then
updated to end. -/
theorem C2_fixed_window_characterization (sig : List ℚ) (threshold : ℚ)
    (pre_buffer post_buffer max_triggers : ℤ) :
    run_fixed_window sig threshold pre_buffer post_buffer max_triggers =
      fixed_window_amended sig threshold pre_buffer post_buffer max_triggers := by
  unfold run_fixed_window fixed_window_amended apply_buffer_constraints
  rw [abc_loop_eq_words_loop]
  · have harg : (fun idx => (idx - (pre_buffer - 1), idx + post_buffer)) =
        (fun idx : ℤ => (idx - pre_buffer + 1, idx + post_buffer)) := by
      funext idx
      rw [Prod.mk.injEq]
      constructor
      · ring
      · rfl
    rw [harg]
  · intro hpos
    simpa using hpos

theorem break_nonpos {mt : ℤ} (hmt : mt ≤ 0) (x : ℕ) :
    (0 < mt ∧ mt ≤ (x : ℤ)) ↔ False :=
  iff_false_intro (fun hx => absurd hx.1 (not_lt.mpr hmt))

theorem abc_loop_nonpos (pre post n mt1 mt2 : ℤ) (h1 : mt1 ≤ 0)
    (h2 : mt2 ≤ 0) (idxs : List ℤ) (lastEnd : ℤ) (acc : List (ℤ × ℤ)) :
    abc_loop pre post n mt1 idxs lastEnd acc =
      abc_loop pre post n mt2 idxs lastEnd acc := by
  induction idxs generalizing lastEnd acc with
  | nil => rfl
  | cons idx rest ih =>
    simp only [abc_loop, break_nonpos h1, break_nonpos h2, if_false]
    split
    · exact ih lastEnd acc
    · split
      · exact ih _ _
      · exact ih lastEnd acc

theorem run_dynamic_loop_nonpos (sig : List ℚ) (thr : ℚ) (pre post mt1 mt2 : ℤ)
    (h1 : mt1 ≤ 0) (h2 : mt2 ≤ 0) (i : ℕ) (lastEnd : ℤ) (acc : List (ℤ × ℤ)) :
    run_dynamic_loop sig thr pre post mt1 i lastEnd acc =
      run_dynamic_loop sig thr pre post mt2 i lastEnd acc := by
  induction i, lastEnd, acc using run_dynamic_loop.induct sig thr pre post mt1 with
  | case1 i le acc h hc start j e hlt acc2 hbr => exact absurd hbr.1 (not_lt.mpr h1)
  | case2 i le acc h hc start j e hlt acc2 hbr ih =>
    conv_lhs => rw [run_dynamic_loop]
    conv_rhs => rw [run_dynamic_loop]
    simp only [dif_pos h, dif_pos hc, if_pos hlt, break_nonpos h1, break_nonpos h2,
      if_false]
    exact ih
  | case3 i le acc h hc start hlt hbr => exact absurd hbr.1 (not_lt.mpr h1)
  | case4 i le acc h hc start j hlt hbr ih =>
    conv_lhs => rw [run_dynamic_loop]
    conv_rhs => rw [run_dynamic_loop]
    simp only [dif_pos h, dif_pos hc, if_neg hlt, break_nonpos h1, break_nonpos h2,
      if_false]
    exact ih
  | case5 i le acc h hc ih =>
    conv_lhs => rw [run_dynamic_loop]
    conv_rhs => rw [run_dynamic_loop]
    simp only [dif_pos h, dif_neg hc]
    exact ih
  | case6 i le acc h =>
    conv_lhs => rw [run_dynamic_loop]
    conv_rhs => rw [run_dynamic_loop]
    simp only [dif_neg h]

theorem run_dyn_single_loop_nonpos (sig : List ℚ) (thr lower : ℚ)
    (pre post mt1 mt2 : ℤ) (debounce : Bool) (mwd : ℤ)
    (h1 : mt1 ≤ 0) (h2 : mt2 ≤ 0) (i : ℕ) (lastEnd : ℤ) (acc : List (ℤ × ℤ)) :
    run_dyn_single_loop sig thr lower pre post mt1 debounce mwd i lastEnd acc =
      run_dyn_single_loop sig thr lower pre post mt2 debounce mwd i lastEnd acc := by
  induction i, lastEnd, acc
    using run_dyn_single_loop.induct sig thr lower pre post mt1 debounce mwd with
  | case1 i le acc h hc hdb scan hshort ih =>
    conv_lhs => rw [run_dyn_single_loop]
    conv_rhs => rw [run_dyn_single_loop]
    simp only [dif_pos h, dif_pos hc, dif_pos hdb, if_pos hshort]
    exact ih
  | case2 i le acc h hc hdb scan hlong j start k e hlt acc2 hbr =>
    exact absurd hbr.1 (not_lt.mpr h1)
  | case3 i le acc h hc hdb scan hlong j start k e hlt acc2 hbr ih =>
    conv_lhs => rw [run_dyn_single_loop]
    conv_rhs => rw [run_dyn_single_loop]
    simp only [dif_pos h, dif_pos hc, dif_pos hdb, if_neg hlong, if_pos hlt,
      break_nonpos h1, break_nonpos h2, if_false]
    exact ih
  | case4 i le acc h hc hdb scan hlong start hlt hbr =>
    exact absurd hbr.1 (not_lt.mpr h1)
  | case5 i le acc h hc hdb scan hlong j start k hlt hbr ih =>
    conv_lhs => rw [run_dyn_single_loop]
    conv_rhs => rw [run_dyn_single_loop]
    simp only [dif_pos h, dif_pos hc, dif_pos hdb, if_neg hlong, if_neg hlt,
      break_nonpos h1, break_nonpos h2, if_false]
    exact ih
  | case6 i le acc h hc hdb j start k e hlt acc2 hbr =>
    exact absurd hbr.1 (not_lt.mpr h1)
  | case7 i le acc h hc hdb j start k e hlt acc2 hbr ih =>
    conv_lhs => rw [run_dyn_single_loop]
    conv_rhs => rw [run_dyn_single_loop]
    simp only [dif_pos h, dif_pos hc, dif_neg hdb, if_pos hlt,
      break_nonpos h1, break_nonpos h2, if_false]
    exact ih
  | case8 i le acc h hc hdb start hlt hbr =>
    exact absurd hbr.1 (not_lt.mpr h1)
  | case9 i le acc h hc hdb j start k hlt hbr ih =>
    conv_lhs => rw [run_dyn_single_loop]
    conv_rhs => rw [run_dyn_single_loop]
    simp only [dif_pos h, dif_pos hc, dif_neg hdb, if_neg hlt,
      break_nonpos h1, break_nonpos h2, if_false]
    exact ih
  | case10 i le acc h hc ih =>
    conv_lhs => rw [run_dyn_single_loop]
    conv_rhs => rw [run_dyn_single_loop]
    simp only [dif_pos h, dif_neg hc]
    exact ih
  | case11 i le acc h =>
    conv_lhs => rw [run_dyn_single_loop]
    conv_rhs => rw [run_dyn_single_loop]
    simp only [dif_neg h]

/-- C9: with max_triggers = 0 all three trigger schemes behave exactly as
with max_triggers = -1 (no cap at all), because the cap is applied only when
max_triggers > 0. -/
theorem C9_max_triggers_zero_is_unlimited (sig : List ℚ) (threshold : ℚ)
    (lower_threshold : Option ℚ) (pre_buffer post_buffer : ℤ)
    (debounce_enabled : Bool) (min_window_duration : ℤ) :
    run_fixed_window sig threshold pre_buffer post_buffer 0 =
        run_fixed_window sig threshold pre_buffer post_buffer (-1) ∧
      run_dynamic sig threshold pre_buffer post_buffer 0 =
        run_dynamic sig threshold pre_buffer post_buffer (-1) ∧
      run_dynamic_single_threshold sig threshold lower_threshold pre_buffer
          post_buffer 0 debounce_enabled min_window_duration =
        run_dynamic_single_threshold sig threshold lower_threshold pre_buffer
          post_buffer (-1) debounce_enabled min_window_duration := by
  refine ⟨?_, ?_, ?_⟩
  · exact abc_loop_nonpos _ _ _ 0 (-1) (le_refl 0) (by norm_num) _ _ _
  · exact run_dynamic_loop_nonpos sig threshold _ _ 0 (-1) (le_refl 0)
      (by norm_num) 1 (-1) []
  · exact run_dyn_single_loop_nonpos sig threshold _ _ _ 0 (-1)
      debounce_enabled min_window_duration (le_refl 0) (by norm_num) 1 (-1) []

theorem debounce_scan_gt (sig : List ℚ) (threshold : ℚ) (mwdN : ℕ)
    (i c : ℕ) (h : i < sig.length) (hv : threshold < sig.getD i 0) :
    i + 1 ≤ (debounce_scan sig threshold mwdN i c).2 := by
  rw [debounce_scan]
  rw [dif_pos ⟨h, hv⟩]
  split
  · exact le_refl (i + 1)
  · exact debounce_scan_ge sig threshold mwdN (i + 1) (c + 1)

theorem chain_concat {R : ℤ × ℤ → ℤ × ℤ → Prop} {l : List (ℤ × ℤ)}
    {a : ℤ × ℤ} (hl : List.Chain' R l) (hlast : ∀ w ∈ l.getLast?, R w a) :
    List.Chain' R (l ++ [a]) := by
  rw [List.chain'_append]
  refine ⟨hl, List.chain'_singleton a, ?_⟩
  intro x hx y hy
  simp only [List.head?_cons, Option.mem_some_iff] at hy
  subst hy
  exact hlast x hx

theorem abc_loop_sound (pre post n maxT : ℤ) (idxs : List ℤ) :
    ∀ lastEnd acc,
      List.Chain' (fun a b : ℤ × ℤ => a.2 < b.1) acc →
      (∀ w ∈ acc, 0 ≤ w.1 ∧ w.2 < n ∧ (0 ≤ pre + post → w.1 ≤ w.2)) →
      (∀ w ∈ acc.getLast?, w.2 = lastEnd) →
      List.Chain' (fun a b : ℤ × ℤ => a.2 < b.1)
          (abc_loop pre post n maxT idxs lastEnd acc) ∧
        ∀ w ∈ abc_loop pre post n maxT idxs lastEnd acc,
          0 ≤ w.1 ∧ w.2 < n ∧ (0 ≤ pre + post → w.1 ≤ w.2) := by
  induction idxs with
  | nil => exact fun le acc hch hq _ => ⟨hch, hq⟩
  | cons idx rest ih =>
    intro le acc hch hq hlast
    simp only [abc_loop]
    split
    · exact ih le acc hch hq hlast
    · rename_i hok
      push_neg at hok
      split
      · rename_i hacc
        have hq2 : ∀ w ∈ acc ++ [(idx - pre, idx + post)],
            0 ≤ w.1 ∧ w.2 < n ∧ (0 ≤ pre + post → w.1 ≤ w.2) := by
          intro w hw
          rcases List.mem_append.mp hw with hw | hw
          · exact hq w hw
          · rw [List.mem_singleton] at hw
            subst hw
            exact ⟨hok.1, hok.2, fun hpp => by omega⟩
        have hch2 : List.Chain' (fun a b : ℤ × ℤ => a.2 < b.1)
            (acc ++ [(idx - pre, idx + post)]) := by
          refine chain_concat hch ?_
          intro w hw
          rw [hlast w hw]
          exact hacc
        have hlast2 : ∀ w ∈ (acc ++ [(idx - pre, idx + post)]).getLast?,
            w.2 = idx + post := by
          rw [List.getLast?_concat]
          intro w hw
          rw [Option.mem_some_iff] at hw
          subst hw
          rfl
        split
        · exact ⟨hch2, hq2⟩
        · exact ih _ _ hch2 hq2 hlast2
      · split
        · exact ⟨hch, hq⟩
        · exact ih le acc hch hq hlast

theorem accept_invariant (sig : List ℚ) (pre post : ℤ) (hpre : 0 ≤ pre)
    (hpost : 0 ≤ post) (i j : ℕ) (h : i < sig.length) (hj : i + 1 ≤ j)
    (le : ℤ) (acc : List (ℤ × ℤ))
    (hch : List.Chain' (fun a b : ℤ × ℤ => a.2 < b.1) acc)
    (hq : ∀ w ∈ acc, 0 ≤ w.1 ∧ w.1 ≤ w.2 ∧ w.2 < (sig.length : ℤ))
    (hlast : ∀ w ∈ acc.getLast?, w.2 = le)
    (hlt : le < ((i : ℤ) - pre) ⊔ 0) :
    List.Chain' (fun a b : ℤ × ℤ => a.2 < b.1)
        (acc ++ [(((i : ℤ) - pre) ⊔ 0,
          ((j : ℤ) - 1 + post) ⊓ ((sig.length : ℤ) - 1))]) ∧
      (∀ w ∈ acc ++ [(((i : ℤ) - pre) ⊔ 0,
          ((j : ℤ) - 1 + post) ⊓ ((sig.length : ℤ) - 1))],
        0 ≤ w.1 ∧ w.1 ≤ w.2 ∧ w.2 < (sig.length : ℤ)) ∧
      ∀ w ∈ (acc ++ [(((i : ℤ) - pre) ⊔ 0,
          ((j : ℤ) - 1 + post) ⊓ ((sig.length : ℤ) - 1))]).getLast?,
        w.2 = ((j : ℤ) - 1 + post) ⊓ ((sig.length : ℤ) - 1) := by
  have hi : (i : ℤ) < (sig.length : ℤ) := by exact_mod_cast h
  have hji : (i : ℤ) + 1 ≤ (j : ℤ) := by exact_mod_cast hj
  have hi0 : (0 : ℤ) ≤ (i : ℤ) := Int.ofNat_nonneg i
  refine ⟨?_, ?_, ?_⟩
  · refine chain_concat hch ?_
    intro w hw
    rw [hlast w hw]
    exact hlt
  · intro w hw
    rcases List.mem_append.mp hw with hw | hw
    · exact hq w hw
    · rw [List.mem_singleton] at hw
      subst hw
      refine ⟨by omega, by omega, by omega⟩
  · rw [List.getLast?_concat]
    intro w hw
    rw [Option.mem_some_iff] at hw
    subst hw
    rfl

theorem run_dynamic_loop_sound (sig : List ℚ) (thr : ℚ) (pre post maxT : ℤ)
    (hpre : 0 ≤ pre) (hpost : 0 ≤ post) (i : ℕ) (lastEnd : ℤ)
    (acc : List (ℤ × ℤ)) :
    List.Chain' (fun a b : ℤ × ℤ => a.2 < b.1) acc →
    (∀ w ∈ acc, 0 ≤ w.1 ∧ w.1 ≤ w.2 ∧ w.2 < (sig.length : ℤ)) →
    (∀ w ∈ acc.getLast?, w.2 = lastEnd) →
    List.Chain' (fun a b : ℤ × ℤ => a.2 < b.1)
        (run_dynamic_loop sig thr pre post maxT i lastEnd acc) ∧
      ∀ w ∈ run_dynamic_loop sig thr pre post maxT i lastEnd acc,
        0 ≤ w.1 ∧ w.1 ≤ w.2 ∧ w.2 < (sig.length : ℤ) := by
  induction i, lastEnd, acc using run_dynamic_loop.induct sig thr pre post maxT with
  | case1 i le acc h hc start j e hlt acc2 hbr =>
    intro hch hq hlast
    rw [run_dynamic_loop]
    rw [dif_pos h, dif_pos hc, if_pos hlt, if_pos hbr]
    have hall := accept_invariant sig pre post hpre hpost i
      (run_end_above sig thr i) h (run_end_above_gt sig thr i h hc.2)
      le acc hch hq hlast hlt
    exact ⟨hall.1, hall.2.1⟩
  | case2 i le acc h hc start j e hlt acc2 hbr ih =>
    intro hch hq hlast
    rw [run_dynamic_loop]
    rw [dif_pos h, dif_pos hc, if_pos hlt, if_neg hbr]
    have hall := accept_invariant sig pre post hpre hpost i
      (run_end_above sig thr i) h (run_end_above_gt sig thr i h hc.2)
      le acc hch hq hlast hlt
    exact ih hall.1 hall.2.1 hall.2.2
  | case3 i le acc h hc start hlt hbr =>
    intro hch hq hlast
    rw [run_dynamic_loop]
    rw [dif_pos h, dif_pos hc, if_neg hlt, if_pos hbr]
    exact ⟨hch, hq⟩
  | case4 i le acc h hc start j hlt hbr ih =>
    intro hch hq hlast
    rw [run_dynamic_loop]
    rw [dif_pos h, dif_pos hc, if_neg hlt, if_neg hbr]
    exact ih hch hq hlast
  | case5 i le acc h hc ih =>
    intro hch hq hlast
    rw [run_dynamic_loop]
    rw [dif_pos h, dif_neg hc]
    exact ih hch hq hlast
  | case6 i le acc h =>
    intro hch hq hlast
    rw [run_dynamic_loop]
    rw [dif_neg h]
    exact ⟨hch, hq⟩

theorem run_dyn_single_loop_sound (sig : List ℚ) (thr lower : ℚ)
    (pre post maxT : ℤ) (debounce : Bool) (mwd : ℤ)
    (hpre : 0 ≤ pre) (hpost : 0 ≤ post) (i : ℕ) (lastEnd : ℤ)
    (acc : List (ℤ × ℤ)) :
    List.Chain' (fun a b : ℤ × ℤ => a.2 < b.1) acc →
    (∀ w ∈ acc, 0 ≤ w.1 ∧ w.1 ≤ w.2 ∧ w.2 < (sig.length : ℤ)) →
    (∀ w ∈ acc.getLast?, w.2 = lastEnd) →
    List.Chain' (fun a b : ℤ × ℤ => a.2 < b.1)
        (run_dyn_single_loop sig thr lower pre post maxT debounce mwd i
          lastEnd acc) ∧
      ∀ w ∈ run_dyn_single_loop sig thr lower pre post maxT debounce mwd i
          lastEnd acc,
        0 ≤ w.1 ∧ w.1 ≤ w.2 ∧ w.2 < (sig.length : ℤ) := by
  induction i, lastEnd, acc
    using run_dyn_single_loop.induct sig thr lower pre post maxT debounce mwd with
  | case1 i le acc h hc hdb scan hshort ih =>
    intro hch hq hlast
    rw [run_dyn_single_loop]
    rw [dif_pos h, dif_pos hc, dif_pos hdb, if_pos hshort]
    exact ih hch hq hlast
  | case2 i le acc h hc hdb scan hlong j start k e hlt acc2 hbr =>
    intro hch hq hlast
    rw [run_dyn_single_loop]
    rw [dif_pos h, dif_pos hc, dif_pos hdb, if_neg hlong, if_pos hlt, if_pos hbr]
    have hjk : i + 1 ≤ run_end_above sig lower
        (debounce_scan sig thr (toSizeT mwd) i 0).2 :=
      le_trans (debounce_scan_gt sig thr (toSizeT mwd) i 0 h hc.2)
        (run_end_above_ge sig lower _)
    have hall := accept_invariant sig pre post hpre hpost i
      (run_end_above sig lower (debounce_scan sig thr (toSizeT mwd) i 0).2)
      h hjk le acc hch hq hlast hlt
    exact ⟨hall.1, hall.2.1⟩
  | case3 i le acc h hc hdb scan hlong j start k e hlt acc2 hbr ih =>
    intro hch hq hlast
    rw [run_dyn_single_loop]
    rw [dif_pos h, dif_pos hc, dif_pos hdb, if_neg hlong, if_pos hlt, if_neg hbr]
    have hjk : i + 1 ≤ run_end_above sig lower
        (debounce_scan sig thr (toSizeT mwd) i 0).2 :=
      le_trans (debounce_scan_gt sig thr (toSizeT mwd) i 0 h hc.2)
        (run_end_above_ge sig lower _)
    have hall := accept_invariant sig pre post hpre hpost i
      (run_end_above sig lower (debounce_scan sig thr (toSizeT mwd) i 0).2)
      h hjk le acc hch hq hlast hlt
    exact ih hall.1 hall.2.1 hall.2.2
  | case4 i le acc h hc hdb scan hlong start hlt hbr =>
    intro hch hq hlast
    rw [run_dyn_single_loop]
    rw [dif_pos h, dif_pos hc, dif_pos hdb, if_neg hlong, if_neg hlt, if_pos hbr]
    exact ⟨hch, hq⟩
  | case5 i le acc h hc hdb scan hlong j start k hlt hbr ih =>
    intro hch hq hlast
    rw [run_dyn_single_loop]
    rw [dif_pos h, dif_pos hc, dif_pos hdb, if_neg hlong, if_neg hlt, if_neg hbr]
    exact ih hch hq hlast
  | case6 i le acc h hc hdb j start k e hlt acc2 hbr =>
    intro hch hq hlast
    rw [run_dyn_single_loop]
    rw [dif_pos h, dif_pos hc, dif_neg hdb, if_pos hlt, if_pos hbr]
    have hjk : i + 1 ≤ run_end_above sig lower (run_end_above sig thr i) :=
      le_trans (run_end_above_gt sig thr i h hc.2)
        (run_end_above_ge sig lower _)
    have hall := accept_invariant sig pre post hpre hpost i
      (run_end_above sig lower (run_end_above sig thr i)) h hjk le acc
      hch hq hlast hlt
    exact ⟨hall.1, hall.2.1⟩
  | case7 i le acc h hc hdb j start k e hlt acc2 hbr ih =>
    intro hch hq hlast
    rw [run_dyn_single_loop]
    rw [dif_pos h, dif_pos hc, dif_neg hdb, if_pos hlt, if_neg hbr]
    have hjk : i + 1 ≤ run_end_above sig lower (run_end_above sig thr i) :=
      le_trans (run_end_above_gt sig thr i h hc.2)
        (run_end_above_ge sig lower _)
    have hall := accept_invariant sig pre post hpre hpost i
      (run_end_above sig lower (run_end_above sig thr i)) h hjk le acc
      hch hq hlast hlt
    exact ih hall.1 hall.2.1 hall.2.2
  | case8 i le acc h hc hdb start hlt hbr =>
    intro hch hq hlast
    rw [run_dyn_single_loop]
    rw [dif_pos h, dif_pos hc, dif_neg hdb, if_neg hlt, if_pos hbr]
    exact ⟨hch, hq⟩
  | case9 i le acc h hc hdb j start k hlt hbr ih =>
    intro hch hq hlast
    rw [run_dyn_single_loop]
    rw [dif_pos h, dif_pos hc, dif_neg hdb, if_neg hlt, if_neg hbr]
    exact ih hch hq hlast
  | case10 i le acc h hc ih =>
    intro hch hq hlast
    rw [run_dyn_single_loop]
    rw [dif_pos h, dif_neg hc]
    exact ih hch hq hlast
  | case11 i le acc h =>
    intro hch hq hlast
    rw [run_dyn_single_loop]
    rw [dif_neg h]
    exact ⟨hch, hq⟩

/-- C1 counterexample: run_fixed_window on signal [0,2,0] with threshold 1,
pre_buffer = 0, post_buffer = 0 accepts the single window (1, 0), whose start
exceeds its end, so the claimed invariant start <= end fails. -/
theorem C1_counterexample :
    ¬ ∀ w ∈ run_fixed_window [0, 2, 0] 1 0 0 (-1), w.1 ≤ w.2 := by decide

/-- C1 (amended): for any signal and any configuration with pre_buffer >= 0
and post_buffer >= 0, each of the three trigger runs returns windows that are
strictly ordered and non-overlapping (end < next start), with 0 <= start and
end < n; the dynamic and dynamic-single-threshold runs additionally satisfy
start <= end for every window, while for the fixed-window run start <= end
holds whenever pre_buffer + post_buffer >= 1 (and can fail when
pre_buffer = post_buffer = 0). -/
theorem C1_windows_ordered_and_bounded (sig : List ℚ) (threshold : ℚ)
    (lower_threshold : Option ℚ) (pre_buffer post_buffer max_triggers : ℤ)
    (debounce_enabled : Bool) (min_window_duration : ℤ)
    (hpre : 0 ≤ pre_buffer) (hpost : 0 ≤ post_buffer) :
    (List.Chain' (fun a b : ℤ × ℤ => a.2 < b.1)
        (run_fixed_window sig threshold pre_buffer post_buffer max_triggers) ∧
      ∀ w ∈ run_fixed_window sig threshold pre_buffer post_buffer max_triggers,
        0 ≤ w.1 ∧ w.2 < (sig.length : ℤ) ∧
          (1 ≤ pre_buffer + post_buffer → w.1 ≤ w.2)) ∧
    (List.Chain' (fun a b : ℤ × ℤ => a.2 < b.1)
        (run_dynamic sig threshold pre_buffer post_buffer max_triggers) ∧
      ∀ w ∈ run_dynamic sig threshold pre_buffer post_buffer max_triggers,
        0 ≤ w.1 ∧ w.1 ≤ w.2 ∧ w.2 < (sig.length : ℤ)) ∧
    (List.Chain' (fun a b : ℤ × ℤ => a.2 < b.1)
        (run_dynamic_single_threshold sig threshold lower_threshold pre_buffer
          post_buffer max_triggers debounce_enabled min_window_duration) ∧
      ∀ w ∈ run_dynamic_single_threshold sig threshold lower_threshold
          pre_buffer post_buffer max_triggers debounce_enabled
          min_window_duration,
        0 ≤ w.1 ∧ w.1 ≤ w.2 ∧ w.2 < (sig.length : ℤ)) := by
  refine ⟨?_, ?_, ?_⟩
  · have hs := abc_loop_sound (pre_buffer - 1) post_buffer (sig.length : ℤ)
      max_triggers (find_trigger_indices sig threshold) (-1) []
      (List.chain'_nil) (by simp) (by simp)
    refine ⟨hs.1, ?_⟩
    intro w hw
    have hw2 := hs.2 w hw
    exact ⟨hw2.1, hw2.2.1, fun hpp => hw2.2.2 (by omega)⟩
  · exact run_dynamic_loop_sound sig threshold pre_buffer post_buffer
      max_triggers hpre hpost 1 (-1) [] (List.chain'_nil) (by simp) (by simp)
  · exact run_dyn_single_loop_sound sig threshold
      (lower_threshold.getD threshold) pre_buffer post_buffer max_triggers
      debounce_enabled min_window_duration hpre hpost 1 (-1) []
      (List.chain'_nil) (by simp) (by simp)

/-- C1 witness: the amended invariant instantiated on a concrete
configuration. -/
theorem C1_witness :
    (0 : ℤ) ≤ 1 ∧
      ∀ w ∈ run_dynamic [0, 2, 0] 1 1 1 (-1),
        0 ≤ w.1 ∧ w.1 ≤ w.2 ∧ w.2 < (([0, 2, 0] : List ℚ).length : ℤ) :=
  ⟨by decide,
    (C1_windows_ordered_and_bounded [0, 2, 0] 1 none 1 1 (-1) true (-1)
      (by decide) (by decide)).2.1.2⟩

/-- Number of leading samples strictly above the threshold. -/
def count_above (threshold : ℚ) : List ℚ → ℕ
  | [] => 0
  | x :: xs => if threshold < x then count_above threshold xs + 1 else 0

/-- Length of the run of consecutive above-threshold samples starting at
index i. -/
def above_run_len (sig : List ℚ) (threshold : ℚ) (i : ℕ) : ℕ :=
  count_above threshold (sig.drop i)

theorem run_end_above_eq_add (sig : List ℚ) (threshold : ℚ) (j : ℕ) :
    run_end_above sig threshold j = j + above_run_len sig threshold j := by
  induction j using run_end_above.induct sig threshold with
  | case1 j h ih =>
    rw [run_end_above, dif_pos h]
    have hdrop : sig.drop j = sig.getD j 0 :: sig.drop (j + 1) := by
      rw [List.getD_eq_getElem sig 0 h.1]
      exact List.drop_eq_getElem_cons h.1
    have hcnt : above_run_len sig threshold j =
        above_run_len sig threshold (j + 1) + 1 := by
      unfold above_run_len
      rw [hdrop, count_above, if_pos h.2]
    omega
  | case2 j h =>
    rw [run_end_above, dif_neg h]
    rcases Nat.lt_or_ge j sig.length with hj | hj
    · have hdrop : sig.drop j = sig.getD j 0 :: sig.drop (j + 1) := by
        rw [List.getD_eq_getElem sig 0 hj]
        exact List.drop_eq_getElem_cons hj
      have hnot : ¬threshold < sig.getD j 0 := fun hv => h ⟨hj, hv⟩
      unfold above_run_len
      rw [hdrop, count_above, if_neg hnot]
      omega
    · unfold above_run_len
      rw [List.drop_eq_nil_of_le hj]
      simp [count_above]

theorem debounce_scan_short (sig : List ℚ) (threshold : ℚ) (mwdN : ℕ) :
    ∀ j c, c + above_run_len sig threshold j < mwdN →
      debounce_scan sig threshold mwdN j c =
        (c + above_run_len sig threshold j, run_end_above sig threshold j) := by
  intro j
  induction j using run_end_above.induct sig threshold with
  | case1 j h ih =>
    intro c hshort
    have hdrop : sig.drop j = sig.getD j 0 :: sig.drop (j + 1) := by
      rw [List.getD_eq_getElem sig 0 h.1]
      exact List.drop_eq_getElem_cons h.1
    have hcnt : above_run_len sig threshold j =
        above_run_len sig threshold (j + 1) + 1 := by
      unfold above_run_len
      rw [hdrop, count_above, if_pos h.2]
    have h2 : run_end_above sig threshold j = run_end_above sig threshold (j + 1) := by
      rw [run_end_above, dif_pos h]
    rw [debounce_scan, dif_pos h]
    rw [if_neg (by omega)]
    rw [ih (c + 1) (by omega)]
    rw [Prod.mk.injEq]
    exact ⟨by omega, h2.symm⟩
  | case2 j h =>
    intro c hshort
    have hzero : above_run_len sig threshold j = 0 := by
      rcases Nat.lt_or_ge j sig.length with hj | hj
      · have hdrop : sig.drop j = sig.getD j 0 :: sig.drop (j + 1) := by
          rw [List.getD_eq_getElem sig 0 hj]
          exact List.drop_eq_getElem_cons hj
        have hnot : ¬threshold < sig.getD j 0 := fun hv => h ⟨hj, hv⟩
        unfold above_run_len
        rw [hdrop, count_above, if_neg hnot]
      · unfold above_run_len
        rw [List.drop_eq_nil_of_le hj]
        rfl
    rw [debounce_scan, dif_neg h]
    rw [run_end_above, dif_neg h]
    rw [hzero]
    rfl

theorem run_dyn_single_loop_all_short (sig : List ℚ) (threshold lower : ℚ)
    (pre post maxT mwd : ℤ) (hmw : mwd ≠ -1)
    (hm : ∀ p < sig.length, above_run_len sig threshold p < toSizeT mwd) :
    ∀ i lastEnd acc,
      run_dyn_single_loop sig threshold lower pre post maxT true mwd i
        lastEnd acc = acc := by
  intro i lastEnd acc
  have hdb : (true : Bool) = true ∧ mwd ≠ -1 := ⟨rfl, hmw⟩
  induction i, lastEnd, acc
    using run_dyn_single_loop.induct sig threshold lower pre post maxT true mwd with
  | case1 i le acc h hc hdb2 scan hshort ih =>
    rw [run_dyn_single_loop]
    rw [dif_pos h, dif_pos hc, dif_pos hdb2, if_pos hshort]
    exact ih
  | case2 i le acc h hc hdb2 scan hlong j start k e hlt acc2 hbr =>
    have hsc : (debounce_scan sig threshold (toSizeT mwd) i 0).1 < toSizeT mwd := by
      rw [debounce_scan_short sig threshold (toSizeT mwd) i 0 (by
        simpa using hm i h)]
      simpa using hm i h
    exact absurd hsc hlong
  | case3 i le acc h hc hdb2 scan hlong j start k e hlt acc2 hbr ih =>
    have hsc : (debounce_scan sig threshold (toSizeT mwd) i 0).1 < toSizeT mwd := by
      rw [debounce_scan_short sig threshold (toSizeT mwd) i 0 (by
        simpa using hm i h)]
      simpa using hm i h
    exact absurd hsc hlong
  | case4 i le acc h hc hdb2 scan hlong start hlt hbr =>
    have hsc : (debounce_scan sig threshold (toSizeT mwd) i 0).1 < toSizeT mwd := by
      rw [debounce_scan_short sig threshold (toSizeT mwd) i 0 (by
        simpa using hm i h)]
      simpa using hm i h
    exact absurd hsc hlong
  | case5 i le acc h hc hdb2 scan hlong j start k hlt hbr ih =>
    have hsc : (debounce_scan sig threshold (toSizeT mwd) i 0).1 < toSizeT mwd := by
      rw [debounce_scan_short sig threshold (toSizeT mwd) i 0 (by
        simpa using hm i h)]
      simpa using hm i h
    exact absurd hsc hlong
  | case6 i le acc h hc hdb2 j start k e hlt acc2 hbr => exact absurd hdb hdb2
  | case7 i le acc h hc hdb2 j start k e hlt acc2 hbr ih => exact absurd hdb hdb2
  | case8 i le acc h hc hdb2 start hlt hbr => exact absurd hdb hdb2
  | case9 i le acc h hc hdb2 j start k hlt hbr ih => exact absurd hdb hdb2
  | case10 i le acc h hc ih =>
    rw [run_dyn_single_loop]
    rw [dif_pos h, dif_neg hc]
    exact ih
  | case11 i le acc h =>
    rw [run_dyn_single_loop]
    rw [dif_neg h]

/-- C4: in the dynamic-single-threshold (double-threshold) run with
debounce_enabled = true and min_window_duration different from -1, if every
above-threshold run in the signal is shorter than min_window_duration (as
size_t), then no window at all is produced: every rising edge is rejected as
noise and the scan resumes after its run. -/
theorem C4_debounce_rejects_short_runs (sig : List ℚ) (threshold : ℚ)
    (lower_threshold : Option ℚ) (pre_buffer post_buffer max_triggers : ℤ)
    (min_window_duration : ℤ) (hmw : min_window_duration ≠ -1)
    (hm : ∀ p < sig.length,
      above_run_len sig threshold p < toSizeT min_window_duration) :
    run_dynamic_single_threshold sig threshold lower_threshold pre_buffer
      post_buffer max_triggers true min_window_duration = [] :=
  run_dyn_single_loop_all_short sig threshold
    (lower_threshold.getD threshold) pre_buffer post_buffer max_triggers
    min_window_duration hmw hm 1 (-1) []

/-- C4 witness: the concrete scenario of the claim, with threshold 1,
lower_threshold 0.5, debounce enabled and min_window_duration 5 on a signal
whose only above-threshold run is 3 samples long: no window is produced. -/
theorem C4_witness :
    (5 : ℤ) ≠ -1 ∧
      (∀ p < ([0, 2, 2, 2, 0, 0] : List ℚ).length,
        above_run_len [0, 2, 2, 2, 0, 0] 1 p < toSizeT 5) ∧
      run_dynamic_single_threshold [0, 2, 2, 2, 0, 0] 1 (some (1 / 2)) 10 10
        (-1) true 5 = [] :=
  ⟨by decide, by decide,
    C4_debounce_rejects_short_runs [0, 2, 2, 2, 0, 0] 1 (some (1 / 2)) 10 10
      (-1) 5 (by decide) (by decide)⟩

/-- Minimum of a list of samples (model of std::min_element over a nonempty
range; the empty case never arises in the code paths below). -/
def list_min : List ℚ → ℚ
  | [] => 0
  | [x] => x
  | x :: y :: xs => min x (list_min (y :: xs))

theorem list_min_le : ∀ (xs : List ℚ), ∀ x ∈ xs, list_min xs ≤ x := by
  intro xs
  induction xs using list_min.induct with
  | case1 =>
    intro x hx
    exact absurd hx (List.not_mem_nil x)
  | case2 y =>
    intro x hx
    rw [List.mem_singleton] at hx
    subst hx
    exact le_refl x
  | case3 y z zs ih =>
    intro x hx
    rcases List.mem_cons.mp hx with hx | hx
    · subst hx
      exact min_le_left _ _
    · exact le_trans (min_le_right _ _) (ih x hx)

/-- Minimum of the index range [a, b) of a signal, as taken by
std::min_element(orig.begin() + a, orig.begin() + b). -/
def slice_min (sig : List ℚ) (a b : ℕ) : ℚ :=
  list_min ((sig.drop a).take (b - a))

theorem getD_mem_slice (l : List ℚ) (a b i : ℕ) (ha : a ≤ i) (hb : i < b)
    (hl : i < l.length) : l.getD i 0 ∈ (l.drop a).take (b - a) := by
  have hlen : i - a < ((l.drop a).take (b - a)).length := by
    simp [List.length_take, List.length_drop]
    omega
  have hget : ((l.drop a).take (b - a))[i - a] = l.getD i 0 := by
    rw [List.getElem_take]
    rw [List.getElem_drop]
    rw [List.getD_eq_getElem l 0 (by omega)]
    congr 1
    omega
  rw [← hget]
  exact List.getElem_mem hlen

theorem slice_min_le_getD (sig : List ℚ) (a i : ℕ) (ha : a ≤ i)
    (hi : i < sig.length) : slice_min sig a (i + 1) ≤ sig.getD i 0 :=
  list_min_le _ _ (getD_mem_slice sig a (i + 1) i ha (Nat.lt_succ_self i) hi)

/-- Indexed rewrite of a signal: output sample i is f i (input sample i).
Models a C++ loop writing signal[i] as a function of i and the copied
original signal. -/
def restore_map (f : ℕ → ℚ → ℚ) : ℕ → List ℚ → List ℚ
  | _, [] => []
  | i, x :: xs => f i x :: restore_map f (i + 1) xs

theorem restore_map_getD (f : ℕ → ℚ → ℚ) :
    ∀ (l : List ℚ) (k i : ℕ), i < l.length →
      (restore_map f k l).getD i 0 = f (k + i) (l.getD i 0) := by
  intro l
  induction l with
  | nil =>
    intro k i hi
    exact absurd hi (by simp)
  | cons x xs ih =>
    intro k i hi
    cases i with
    | zero => rfl
    | succ m =>
      have hm : m < xs.length := by simpa using hi
      calc (restore_map f k (x :: xs)).getD (m + 1) 0
          = (restore_map f (k + 1) xs).getD m 0 := rfl
        _ = f (k + 1 + m) (xs.getD m 0) := ih (k + 1) m hm
        _ = f (k + (m + 1)) ((x :: xs).getD (m + 1) 0) := by
            have harith : k + 1 + m = k + (m + 1) := by omega
            rw [harith]
            rfl

/-- compute_baseline_restoration (FlowCyPy/cpp/filter.cpp): the finite-window
branch sets signal[0] = 0 and, for i >= 1, subtracts the minimum of the
window [max(0, i - window_size), i) of the original signal — exclusive of
index i; the window_size = -1 branch leaves signal[0] unchanged and, for
i >= 1, subtracts the minimum of [0, i). -/
def compute_baseline_restoration (sig : List ℚ) (window_size : ℤ) : List ℚ :=
  if window_size = -1 then
    restore_map (fun i x => if i = 0 then x else x - slice_min sig 0 i) 0 sig
  else
    restore_map (fun i x => if i = 0 then 0 else
      x - slice_min sig
        (if i < toSizeT window_size then 0 else i - toSizeT window_size) i)
      0 sig

/-- compute_baseline_restoration
(FlowCyPy/cpp/deprecated/cpp_deprecated/filter/filter.cpp): same structure,
but both branches take the window minimum inclusive of the current index i
(min over [max(0, i - window_size), i + 1), respectively [0, i + 1)). -/
def compute_baseline_restoration_deprecated (sig : List ℚ)
    (window_size : ℤ) : List ℚ :=
  if window_size = -1 then
    restore_map (fun i x => if i = 0 then x else x - slice_min sig 0 (i + 1))
      0 sig
  else
    restore_map (fun i x => if i = 0 then 0 else
      x - slice_min sig
        (if i < toSizeT window_size then 0 else i - toSizeT window_size)
        (i + 1))
      0 sig

/-- C3 counterexample: on the signal [5, 3], the live implementation with
window_size = 1 produces [0, -2] (a negative restored sample, because its
window excludes the current index), and with window_size = -1 the first
output sample is 5, not 0 (that branch leaves signal[0] unchanged). -/
theorem C3_counterexample :
    (¬ ∀ x ∈ (compute_baseline_restoration [5, 3] 1).drop 1, 0 ≤ x) ∧
      (compute_baseline_restoration [5, 3] (-1)).headD 0 ≠ 0 := by
  have h1 : compute_baseline_restoration [5, 3] 1 = [0, -2] := by
    norm_num [compute_baseline_restoration, restore_map, slice_min, list_min,
      toSizeT]
  have h2 : compute_baseline_restoration [5, 3] (-1) = [5, -2] := by
    norm_num [compute_baseline_restoration, restore_map, slice_min, list_min,
      toSizeT]
  rw [h1, h2]
  norm_num

theorem baseline_head_zero (sig : List ℚ) (ws : ℤ) (hne : sig ≠ [])
    (hws : ws ≠ -1) :
    (compute_baseline_restoration sig ws).headD 0 = 0 ∧
      (compute_baseline_restoration_deprecated sig ws).headD 0 = 0 := by
  cases sig with
  | nil => exact absurd rfl hne
  | cons x xs =>
    unfold compute_baseline_restoration compute_baseline_restoration_deprecated
    rw [if_neg hws, if_neg hws]
    exact ⟨rfl, rfl⟩

theorem baseline_head_unchanged (sig : List ℚ) (hne : sig ≠ []) :
    (compute_baseline_restoration sig (-1)).headD 0 = sig.headD 0 ∧
      (compute_baseline_restoration_deprecated sig (-1)).headD 0 =
        sig.headD 0 := by
  cases sig with
  | nil => exact absurd rfl hne
  | cons x xs =>
    unfold compute_baseline_restoration compute_baseline_restoration_deprecated
    rw [if_pos rfl, if_pos rfl]
    exact ⟨rfl, rfl⟩

theorem baseline_deprecated_nonneg (sig : List ℚ) (ws : ℤ) (i : ℕ)
    (h1 : 1 ≤ i) (hi : i < sig.length) :
    0 ≤ (compute_baseline_restoration_deprecated sig ws).getD i 0 := by
  unfold compute_baseline_restoration_deprecated
  split
  · rw [restore_map_getD _ sig 0 i hi]
    simp only [Nat.zero_add]
    rw [if_neg (by omega)]
    rw [sub_nonneg]
    exact slice_min_le_getD sig 0 i (Nat.zero_le i) hi
  · rw [restore_map_getD _ sig 0 i hi]
    simp only [Nat.zero_add]
    rw [if_neg (by omega)]
    rw [sub_nonneg]
    refine slice_min_le_getD sig _ i ?_ hi
    split
    · exact Nat.zero_le i
    · omega

/-- C3 (amended): for every non-empty input, with window_size >= 1 both
implementations set the first restored sample to exactly 0, but only the
deprecated implementation (window inclusive of the current sample)
guarantees that every sample at index i >= 1 is >= 0 — the live
implementation can produce negative samples; with window_size = -1 both
implementations leave the first sample unchanged (not 0), and the
deprecated one still keeps samples at i >= 1 non-negative. -/
theorem C3_baseline_restoration_amended (sig : List ℚ) (ws : ℤ)
    (hne : sig ≠ []) :
    (1 ≤ ws →
      (compute_baseline_restoration sig ws).headD 0 = 0 ∧
      (compute_baseline_restoration_deprecated sig ws).headD 0 = 0 ∧
      ∀ i, 1 ≤ i → i < sig.length →
        0 ≤ (compute_baseline_restoration_deprecated sig ws).getD i 0) ∧
    ((compute_baseline_restoration sig (-1)).headD 0 = sig.headD 0 ∧
      (compute_baseline_restoration_deprecated sig (-1)).headD 0 =
        sig.headD 0 ∧
      ∀ i, 1 ≤ i → i < sig.length →
        0 ≤ (compute_baseline_restoration_deprecated sig (-1)).getD i 0) := by
  constructor
  · intro hws
    have hz := baseline_head_zero sig ws hne (by omega)
    exact ⟨hz.1, hz.2,
      fun i h1 hi => baseline_deprecated_nonneg sig ws i h1 hi⟩
  · have hu := baseline_head_unchanged sig hne
    exact ⟨hu.1, hu.2,
      fun i h1 hi => baseline_deprecated_nonneg sig (-1) i h1 hi⟩

/-- C3 witness: the amended statement instantiated on the signal [5, 3]. -/
theorem C3_witness :
    ([5, 3] : List ℚ) ≠ [] ∧
      (compute_baseline_restoration_deprecated [5, 3] 1).headD 0 = 0 :=
  ⟨by decide,
    ((C3_baseline_restoration_amended [5, 3] 1 (by decide)).1
      (by decide)).2.1⟩

/-- Model of std::round (round half away from zero). -/
def round_half_away (q : ℚ) : ℤ := if 0 ≤ q then ⌊q + 1 / 2⌋ else ⌈q - 1 / 2⌉

/-- Replacement value drawn for one sample by
SignalGenerator::_apply_mixed_poisson_noise_to_signal: an integer Poisson
draw (cast to double) when the sample is below 1e6, otherwise a rounded
normal draw.  The random generator is modelled by the two oracle streams
pd (Poisson draws) and nd (normal draws), indexed by sample position. -/
def mixed_replacement (pd : ℕ → ℚ → ℤ) (nd : ℕ → ℚ → ℚ) (i : ℕ) (v : ℚ) :
    ℚ :=
  if v < 1000000 then ((pd i v : ℤ) : ℚ)
  else ((round_half_away (nd i v) : ℤ) : ℚ)

/-- Sample loop of SignalGenerator::_apply_mixed_poisson_noise_to_signal:
walks the signal left to right, replacing each sample in place, and throws
on the first negative sample — samples already visited stay replaced,
samples not yet visited stay as they were. -/
def mixed_poisson_loop (pd : ℕ → ℚ → ℤ) (nd : ℕ → ℚ → ℚ) :
    ℕ → List ℚ → List ℚ × Option String
  | _, [] => ([], none)
  | i, v :: rest =>
    if v < 0 then
      (v :: rest, some "Poisson noise requires non-negative values.")
    else
      let r := mixed_poisson_loop pd nd (i + 1) rest
      (mixed_replacement pd nd i v :: r.1, r.2)

/-- SignalGenerator::_apply_mixed_poisson_noise_to_signal
(signal_generator.cpp): empty signals raise, otherwise the in-place sample
loop runs; the returned list is the observable state of the channel after
the call (also when it throws). -/
def apply_mixed_poisson_noise_to_signal (pd : ℕ → ℚ → ℤ) (nd : ℕ → ℚ → ℚ)
    (sig : List ℚ) : List ℚ × Option String :=
  if sig.isEmpty then (sig, some "Signal is empty.")
  else mixed_poisson_loop pd nd 0 sig

/-- C5 counterexample: on the channel [1/2, -1] the call fails with the
negative-value error, but the channel is left as [0, -1] (the first sample
was already replaced by its Poisson draw before the negative sample was
reached), not as [1/2, -1]. -/
theorem C5_counterexample :
    (apply_mixed_poisson_noise_to_signal (fun _ _ => 0) (fun _ _ => 0)
        [1 / 2, -1]).1 ≠ [1 / 2, -1] ∧
      (apply_mixed_poisson_noise_to_signal (fun _ _ => 0) (fun _ _ => 0)
        [1 / 2, -1]).2 =
        some "Poisson noise requires non-negative values." := by
  constructor
  · norm_num [apply_mixed_poisson_noise_to_signal, mixed_poisson_loop,
      mixed_replacement]
  · norm_num [apply_mixed_poisson_noise_to_signal, mixed_poisson_loop,
      mixed_replacement]

theorem mixed_poisson_loop_err (pd : ℕ → ℚ → ℤ) (nd : ℕ → ℚ → ℚ) :
    ∀ (l : List ℚ) (k : ℕ),
      l.findIdx (fun v => decide (v < 0)) < l.length →
      mixed_poisson_loop pd nd k l =
        ((List.range (l.findIdx (fun v => decide (v < 0)))).map
            (fun i => mixed_replacement pd nd (k + i) (l.getD i 0)) ++
          l.drop (l.findIdx (fun v => decide (v < 0))),
          some "Poisson noise requires non-negative values.") := by
  intro l
  induction l with
  | nil =>
    intro k hm
    exact absurd hm (by simp)
  | cons v rest ih =>
    intro k hm
    by_cases hv : v < 0
    · rw [List.findIdx_cons]
      simp only [hv, decide_True, cond_true]
      simp [mixed_poisson_loop, hv]
    · rw [List.findIdx_cons] at hm ⊢
      simp only [hv, decide_False, cond_false] at hm ⊢
      have hm2 : rest.findIdx (fun v => decide (v < 0)) < rest.length := by
        simpa using hm
      have hmap : List.map
            (fun i => mixed_replacement pd nd (k + 1 + i) (rest.getD i 0))
            (List.range (rest.findIdx (fun v => decide (v < 0)))) =
          List.map
            ((fun i => mixed_replacement pd nd (k + i) ((v :: rest).getD i 0))
              ∘ Nat.succ)
            (List.range (rest.findIdx (fun v => decide (v < 0)))) := by
        apply List.map_congr_left
        intro i hi
        simp only [Function.comp_apply]
        have harith : k + 1 + i = k + (i + 1) := by omega
        rw [harith]
        rfl
      simp only [mixed_poisson_loop, if_neg hv]
      rw [ih (k + 1) hm2]
      rw [List.range_succ_eq_map]
      simp only [List.map_cons, List.map_map, List.cons_append,
        List.drop_succ_cons]
      rw [← hmap]
      rfl

/-- C5 (amended): if a channel contains a negative sample, the mixed Poisson
noise call fails with the negative-value error, and letting m be the index
of the first negative sample, every sample from index m on is exactly what
it was before the call, while every sample before m has already been
replaced by its noise draw — the call is not atomic. -/
theorem C5_poisson_negative_amended (pd : ℕ → ℚ → ℤ) (nd : ℕ → ℚ → ℚ)
    (sig : List ℚ)
    (hm : sig.findIdx (fun v => decide (v < 0)) < sig.length) :
    apply_mixed_poisson_noise_to_signal pd nd sig =
      ((List.range (sig.findIdx (fun v => decide (v < 0)))).map
          (fun i => mixed_replacement pd nd i (sig.getD i 0)) ++
        sig.drop (sig.findIdx (fun v => decide (v < 0))),
        some "Poisson noise requires non-negative values.") := by
  have hne : sig.isEmpty = false := by
    cases sig with
    | nil => exact absurd hm (by simp)
    | cons x xs => rfl
  unfold apply_mixed_poisson_noise_to_signal
  rw [hne]
  simp only [Bool.false_eq_true, if_false]
  have := mixed_poisson_loop_err pd nd sig 0 hm
  simpa using this

/-- C5 witness: the amended statement instantiated on the channel
[1/2, -1] with constant-zero draw oracles. -/
theorem C5_witness :
    ([2, -1] : List ℚ).findIdx (fun v => decide (v < 0)) <
        ([2, -1] : List ℚ).length ∧
      apply_mixed_poisson_noise_to_signal (fun _ _ => 0) (fun _ _ => 0)
          [2, -1] =
        ((List.range (([2, -1] : List ℚ).findIdx
              (fun v => decide (v < 0)))).map
            (fun i => mixed_replacement (fun _ _ => 0) (fun _ _ => 0) i
              (([2, -1] : List ℚ).getD i 0)) ++
          ([2, -1] : List ℚ).drop
            (([2, -1] : List ℚ).findIdx (fun v => decide (v < 0))),
          some "Poisson noise requires non-negative values.") :=
  ⟨by decide,
    C5_poisson_negative_amended (fun _ _ => 0) (fun _ _ => 0) [2, -1]
      (by decide)⟩

/-- The exponential-smoothing loop y = alpha * x + (1 - alpha) * y_prev
shared by the Butterworth and Bessel filters of filter.cpp; each output
sample is additionally scaled by gain (the running y_prev keeps the
pre-gain value, as in the C++ code). -/
def smooth_loop (alpha gain : ℚ) : ℚ → List ℚ → List ℚ
  | _, [] => []
  | yprev, x :: rest =>
    let y := alpha * x + (1 - alpha) * yprev
    y * gain :: smooth_loop alpha gain y rest

/-- apply_first_order_butterworth_filter (filter.cpp): errors when
cutoff_freq >= sampling_rate / 2, silently returns an empty signal
unchanged, and otherwise smooths with alpha = dt / (RC + dt),
RC = 1 / (2 pi cutoff), y_prev initialised to signal[0].  The constant pi
of the C++ code (M_PI) is abstracted as the parameter piA. -/
def apply_first_order_butterworth_filter (piA sampling_rate cutoff_freq
    gain : ℚ) (sig : List ℚ) : Except String (List ℚ) :=
  if sampling_rate / 2 ≤ cutoff_freq then
    .error
      "Cutoff frequency must be less than Nyquist frequency (sampling_rate / 2)."
  else if sig.isEmpty then .ok sig
  else
    let dt := 1 / sampling_rate
    let RC := 1 / (2 * piA * cutoff_freq)
    let alpha := dt / (RC + dt)
    .ok (smooth_loop alpha gain (sig.headD 0) sig)

/-- Stage loop of apply_butterworth_lowpass_filter (filter.cpp): cascades
num_stages first-order Butterworth filters with unit gain. -/
def butterworth_cascade_loop (piA sampling_rate cutoff_freq : ℚ) :
    ℕ → List ℚ → Except String (List ℚ)
  | 0, s => .ok s
  | k + 1, s =>
    match apply_first_order_butterworth_filter piA sampling_rate cutoff_freq
        1 s with
    | .error msg => .error msg
    | .ok s2 => butterworth_cascade_loop piA sampling_rate cutoff_freq k s2

/-- apply_butterworth_lowpass_filter (filter.cpp): cascade num_stages
first-order stages, then scale everything by gain. -/
def apply_butterworth_lowpass_filter (piA sampling_rate cutoff_freq : ℚ)
    (num_stages : ℤ) (gain : ℚ) (sig : List ℚ) : Except String (List ℚ) :=
  match butterworth_cascade_loop piA sampling_rate cutoff_freq
      num_stages.toNat sig with
  | .error msg => .error msg
  | .ok s => .ok (s.map (fun v => v * gain))

/-- Stage loop of apply_bessel_lowpass_filter_ (filter.cpp): each stage
re-reads the head of the current buffer as y_prev and smooths in place with
unit gain. -/
def bessel_stage_loop (alpha : ℚ) : ℕ → List ℚ → List ℚ
  | 0, s => s
  | k + 1, s => bessel_stage_loop alpha k (smooth_loop alpha 1 (s.headD 0) s)

/-- apply_bessel_lowpass_filter_ (filter.cpp): errors when
cutoff_freq >= sampling_rate / 2, returns an empty signal unchanged
(silent no-op), and otherwise cascades order first-order RC stages with
alpha = T / (RC + T) and finally scales by gain. -/
def apply_bessel_lowpass_filter (piA sampling_rate cutoff_freq : ℚ)
    (order : ℤ) (gain : ℚ) (sig : List ℚ) : Except String (List ℚ) :=
  if sampling_rate / 2 ≤ cutoff_freq then
    .error
      "Cutoff frequency must be less than Nyquist frequency (sampling_rate / 2)."
  else if sig.isEmpty then .ok sig
  else
    let T := 1 / sampling_rate
    let RC := 1 / (2 * piA * cutoff_freq)
    let alpha := T / (RC + T)
    .ok ((bessel_stage_loop alpha order.toNat sig).map (fun v => v * gain))

/-- C6 counterexample: with a valid cutoff, both filter calls on an empty
channel return successfully with the channel unchanged instead of raising
an empty-signal error (only Poisson noise injection raises on empty). -/
theorem C6_counterexample :
    apply_first_order_butterworth_filter 3 1 (1 / 4) 1 [] = Except.ok [] ∧
      apply_bessel_lowpass_filter 3 1 (1 / 4) 4 1 [] = Except.ok [] := by
  constructor
  · norm_num [apply_first_order_butterworth_filter]
  · norm_num [apply_bessel_lowpass_filter]

/-- C6 (amended): mixed Poisson noise injection on an empty channel raises
the empty-signal error, but the Butterworth and Bessel filter calls on an
empty channel (with cutoff below Nyquist) return with the channel
unchanged — a silent no-op, not an error. -/
theorem C6_empty_signal_amended (pd : ℕ → ℚ → ℤ) (nd : ℕ → ℚ → ℚ)
    (piA sampling_rate cutoff_freq gain : ℚ) (order : ℤ)
    (h : cutoff_freq < sampling_rate / 2) :
    apply_mixed_poisson_noise_to_signal pd nd [] =
        ([], some "Signal is empty.") ∧
      apply_first_order_butterworth_filter piA sampling_rate cutoff_freq gain
          [] = Except.ok [] ∧
      apply_bessel_lowpass_filter piA sampling_rate cutoff_freq order gain
          [] = Except.ok [] := by
  refine ⟨rfl, ?_, ?_⟩
  · unfold apply_first_order_butterworth_filter
    rw [if_neg (not_le.mpr h)]
    rfl
  · unfold apply_bessel_lowpass_filter
    rw [if_neg (not_le.mpr h)]
    rfl

/-- C6 witness: the amended statement at a concrete valid configuration. -/
theorem C6_witness :
    (1 / 4 : ℚ) < 1 / 2 ∧
      apply_first_order_butterworth_filter 3 1 (1 / 4) 1 [] =
        Except.ok [] :=
  ⟨by norm_num,
    (C6_empty_signal_amended (fun _ _ => 0) (fun _ _ => 0) 3 1 (1 / 4) 1 4
      (by norm_num)).2.1⟩

theorem smooth_loop_const (alpha c : ℚ) :
    ∀ n : ℕ, smooth_loop alpha 1 c (List.replicate n c) = List.replicate n c := by
  intro n
  induction n with
  | zero => rfl
  | succ m ih =>
    rw [List.replicate_succ]
    simp only [smooth_loop]
    have hy : alpha * c + (1 - alpha) * c = c := by ring
    rw [hy, mul_one, ih]

theorem first_order_butterworth_const (piA sampling_rate cutoff_freq c : ℚ)
    (n : ℕ) (h : cutoff_freq < sampling_rate / 2) :
    apply_first_order_butterworth_filter piA sampling_rate cutoff_freq 1
      (List.replicate n c) = Except.ok (List.replicate n c) := by
  unfold apply_first_order_butterworth_filter
  rw [if_neg (not_le.mpr h)]
  cases n with
  | zero => rfl
  | succ m =>
    have hne : (List.replicate (m + 1) c).isEmpty = false := by
      rw [List.replicate_succ]
      rfl
    have hhead : (List.replicate (m + 1) c).headD 0 = c := by
      rw [List.replicate_succ]
      rfl
    rw [hne]
    simp only [Bool.false_eq_true, if_false]
    rw [hhead, smooth_loop_const]

theorem butterworth_cascade_const (piA sampling_rate cutoff_freq c : ℚ)
    (h : cutoff_freq < sampling_rate / 2) :
    ∀ (k n : ℕ), butterworth_cascade_loop piA sampling_rate cutoff_freq k
      (List.replicate n c) = Except.ok (List.replicate n c) := by
  intro k
  induction k with
  | zero => intro n; rfl
  | succ m ih =>
    intro n
    simp only [butterworth_cascade_loop]
    rw [first_order_butterworth_const piA sampling_rate cutoff_freq c n h]
    exact ih n

theorem bessel_stage_const (alpha c : ℚ) :
    ∀ (k n : ℕ), bessel_stage_loop alpha k (List.replicate n c) =
      List.replicate n c := by
  intro k
  induction k with
  | zero => intro n; rfl
  | succ m ih =>
    intro n
    cases n with
    | zero => simp only [bessel_stage_loop, smooth_loop]; exact ih 0
    | succ p =>
      simp only [bessel_stage_loop]
      rw [List.replicate_succ, List.headD_cons, ← List.replicate_succ]
      rw [smooth_loop_const]
      exact ih (p + 1)

/-- Magnitude mask of the deprecated FFT Butterworth filter
(deprecated/cpp_deprecated/utils/utils.cpp fft_filter):
H(f) = (1 / sqrt(1 + (f/fc)^2))^order. -/
noncomputable def butterworth_mask (f fc : ℝ) (order : ℕ) : ℝ :=
  (1 / Real.sqrt (1 + (f / fc) ^ 2)) ^ order

/-- C7: with gain 1 and a valid cutoff, applying the first-order Butterworth
filter, the cascaded Butterworth filter with any number of stages, or the
Bessel filter with any order to a constant signal c returns the constant
signal c exactly; and the frequency-domain Butterworth mask of the
deprecated fft_filter satisfies H(0) = 1, for every cutoff and order. -/
theorem C7_filters_preserve_constants (piA sampling_rate cutoff_freq c : ℚ)
    (n : ℕ) (num_stages order : ℤ) (fc : ℝ) (maskOrder : ℕ)
    (h : cutoff_freq < sampling_rate / 2) :
    apply_first_order_butterworth_filter piA sampling_rate cutoff_freq 1
        (List.replicate n c) = Except.ok (List.replicate n c) ∧
      apply_butterworth_lowpass_filter piA sampling_rate cutoff_freq
        num_stages 1 (List.replicate n c) = Except.ok (List.replicate n c) ∧
      apply_bessel_lowpass_filter piA sampling_rate cutoff_freq order 1
        (List.replicate n c) = Except.ok (List.replicate n c) ∧
      butterworth_mask 0 fc maskOrder = 1 := by
  refine ⟨first_order_butterworth_const piA sampling_rate cutoff_freq c n h,
    ?_, ?_, ?_⟩
  · unfold apply_butterworth_lowpass_filter
    rw [butterworth_cascade_const piA sampling_rate cutoff_freq c h
      num_stages.toNat n]
    show Except.ok ((List.replicate n c).map (fun v => v * 1)) =
      Except.ok (List.replicate n c)
    have hmap : (List.replicate n c).map (fun v => v * 1) =
        List.replicate n c := by
      simp
    rw [hmap]
  · unfold apply_bessel_lowpass_filter
    rw [if_neg (not_le.mpr h)]
    cases n with
    | zero => rfl
    | succ p =>
      have hne : (List.replicate (p + 1) c).isEmpty = false := by
        rw [List.replicate_succ]
        rfl
      rw [hne]
      simp only [Bool.false_eq_true, if_false]
      rw [bessel_stage_const]
      have hmap : (List.replicate (p + 1) c).map (fun v => v * 1) =
          List.replicate (p + 1) c := by
        simp
      rw [hmap]
  · unfold butterworth_mask
    rw [zero_div]
    norm_num

/-- C7 witness: the constant-preservation statement at a concrete
configuration. -/
theorem C7_witness :
    (1 / 4 : ℚ) < 1 / 2 ∧
      apply_butterworth_lowpass_filter 3 1 (1 / 4) 2 1
          (List.replicate 5 (7 : ℚ)) =
        Except.ok (List.replicate 5 (7 : ℚ)) :=
  ⟨by norm_num,
    (C7_filters_preserve_constants 3 1 (1 / 4) 7 5 2 4 1 2
      (by norm_num)).2.1⟩

/-- Gaussian contribution of one pulse at one time sample, as computed by
FlowCyPySim::get_acquisition (core/core.cpp): coupling * exp(-(dt*dt) *
inv_denom) with inv_denom = 1/(2*w*w).  The exponential (std::exp on
doubles) is abstracted as the oracle E. -/
def gaussian_pulse_value (E : ℚ → ℚ) (w c a t : ℚ) : ℚ :=
  a * E (-((t - c) * (t - c)) * (1 / (2 * w * w)))

/-- One iteration of the outer pulse loop of get_acquisition: add the
pulse's Gaussian contribution to every sample of the accumulating output. -/
def add_pulse_to_signal (E : ℚ → ℚ) (w c a : ℚ) (time out : List ℚ) :
    List ℚ :=
  List.zipWith (fun p t => p + gaussian_pulse_value E w c a t) out time

/-- FlowCyPySim::get_acquisition (core/core.cpp) together with the length
check of the FlowCyPySim constructor: errors when widths, centers and
coupling_power differ in length, otherwise initialises every output sample
to background_power and accumulates every pulse into every sample. -/
def get_acquisition (E : ℚ → ℚ)
    (widths centers coupling_power time : List ℚ) (background_power : ℚ) :
    Except String (List ℚ) :=
  if widths.length = centers.length ∧
      widths.length = coupling_power.length then
    .ok ((widths.zip (centers.zip coupling_power)).foldl
      (fun out p => add_pulse_to_signal E p.1 p.2.1 p.2.2 time out)
      (time.map (fun _ => background_power)))
  else .error "widths, centers, coupling_power must have the same length."

theorem zipWith_getD (f : ℚ → ℚ → ℚ) :
    ∀ (l1 l2 : List ℚ) (i : ℕ), i < l1.length → i < l2.length →
      (List.zipWith f l1 l2).getD i 0 = f (l1.getD i 0) (l2.getD i 0) := by
  intro l1
  induction l1 with
  | nil =>
    intro l2 i h1 h2
    exact absurd h1 (by simp)
  | cons x xs ih =>
    intro l2 i h1 h2
    cases l2 with
    | nil => exact absurd h2 (by simp)
    | cons y ys =>
      cases i with
      | zero => rfl
      | succ m =>
        have hm1 : m < xs.length := by simpa using h1
        have hm2 : m < ys.length := by simpa using h2
        exact ih ys m hm1 hm2

theorem add_pulse_length (E : ℚ → ℚ) (w c a : ℚ) (time out : List ℚ)
    (hlen : out.length = time.length) :
    (add_pulse_to_signal E w c a time out).length = time.length := by
  unfold add_pulse_to_signal
  rw [List.length_zipWith]
  omega

theorem pulse_fold_spec (E : ℚ → ℚ) (time : List ℚ) :
    ∀ (ps : List (ℚ × ℚ × ℚ)) (out : List ℚ),
      out.length = time.length →
      (ps.foldl (fun out p => add_pulse_to_signal E p.1 p.2.1 p.2.2 time out)
          out).length = time.length ∧
      ∀ i < time.length,
        (ps.foldl
            (fun out p => add_pulse_to_signal E p.1 p.2.1 p.2.2 time out)
            out).getD i 0 =
          out.getD i 0 +
            (ps.map (fun p =>
              gaussian_pulse_value E p.1 p.2.1 p.2.2 (time.getD i 0))).sum := by
  intro ps
  induction ps with
  | nil =>
    intro out hlen
    refine ⟨hlen, ?_⟩
    intro i hi
    simp
  | cons p ps ih =>
    intro out hlen
    have hstep : (add_pulse_to_signal E p.1 p.2.1 p.2.2 time out).length =
        time.length := add_pulse_length E p.1 p.2.1 p.2.2 time out hlen
    have hrec := ih (add_pulse_to_signal E p.1 p.2.1 p.2.2 time out) hstep
    refine ⟨hrec.1, ?_⟩
    intro i hi
    rw [List.foldl_cons]
    rw [hrec.2 i hi]
    have hone : (add_pulse_to_signal E p.1 p.2.1 p.2.2 time out).getD i 0 =
        out.getD i 0 + gaussian_pulse_value E p.1 p.2.1 p.2.2
          (time.getD i 0) := by
      unfold add_pulse_to_signal
      exact zipWith_getD _ out time i (by omega) hi
    rw [hone]
    rw [List.map_cons, List.sum_cons]
    ring

theorem gaussian_arg_eq (t c w : ℚ) :
    -((t - c) * (t - c)) * (1 / (2 * w * w)) = -(t - c) ^ 2 / (2 * w ^ 2) := by
  ring

/-- C8: when the three pulse-parameter arrays have equal length, pulse
synthesis returns a signal of the same length as the time axis whose every
sample i equals background + sum over all pulses k of
amplitudes[k] * E(-(t[i]-centers[k])^2 / (2*widths[k]^2)) — every pulse
contributes to every sample, with no distance cutoff; when the three arrays
differ in length it fails with the length-mismatch error. -/
theorem C8_get_acquisition_spec (E : ℚ → ℚ)
    (widths centers coupling_power time : List ℚ) (background_power : ℚ) :
    (widths.length = centers.length ∧
        widths.length = coupling_power.length →
      ∃ out, get_acquisition E widths centers coupling_power time
          background_power = Except.ok out ∧
        out.length = time.length ∧
        ∀ i < time.length, out.getD i 0 =
          background_power +
            ((widths.zip (centers.zip coupling_power)).map
              (fun p => p.2.2 *
                E (-(time.getD i 0 - p.2.1) ^ 2 / (2 * p.1 ^ 2)))).sum) ∧
    (¬ (widths.length = centers.length ∧
        widths.length = coupling_power.length) →
      get_acquisition E widths centers coupling_power time background_power =
        Except.error
          "widths, centers, coupling_power must have the same length.") := by
  constructor
  · intro hlen
    refine ⟨(widths.zip (centers.zip coupling_power)).foldl
      (fun out p => add_pulse_to_signal E p.1 p.2.1 p.2.2 time out)
      (time.map (fun _ => background_power)), ?_, ?_, ?_⟩
    · unfold get_acquisition
      rw [if_pos hlen]
    · have hinit : (time.map (fun _ => background_power)).length =
          time.length := by simp
      exact (pulse_fold_spec E time (widths.zip (centers.zip coupling_power))
        (time.map (fun _ => background_power)) hinit).1
    · intro i hi
      have hinit : (time.map (fun _ => background_power)).length =
          time.length := by simp
      have hspec := (pulse_fold_spec E time
        (widths.zip (centers.zip coupling_power))
        (time.map (fun _ => background_power)) hinit).2 i hi
      rw [hspec]
      have hbg : (time.map (fun _ => background_power)).getD i 0 =
          background_power := by
        rw [List.getD_eq_getElem _ 0 (by simpa using hi)]
        rw [List.getElem_map]
      rw [hbg]
      have hfun : (fun p : ℚ × ℚ × ℚ =>
            gaussian_pulse_value E p.1 p.2.1 p.2.2 (time.getD i 0)) =
          (fun p : ℚ × ℚ × ℚ => p.2.2 *
            E (-(time.getD i 0 - p.2.1) ^ 2 / (2 * p.1 ^ 2))) := by
        funext p
        unfold gaussian_pulse_value
        rw [gaussian_arg_eq]
      rw [hfun]
  · intro hlen
    unfold get_acquisition
    rw [if_neg hlen]

/-- C8 witness: pulse synthesis on a concrete configuration, in both the
matching-length and mismatched-length cases. -/
theorem C8_witness :
    (([1, 2] : List ℚ).length = ([0, 5] : List ℚ).length ∧
        ([1, 2] : List ℚ).length = ([3, 4] : List ℚ).length) ∧
      (∃ out, get_acquisition (fun x => x) [1, 2] [0, 5] [3, 4] [0, 1, 2] 6 =
          Except.ok out ∧
        out.length = ([0, 1, 2] : List ℚ).length ∧
        ∀ i < ([0, 1, 2] : List ℚ).length, out.getD i 0 =
          6 + ((([1, 2] : List ℚ).zip
              (([0, 5] : List ℚ).zip ([3, 4] : List ℚ))).map
            (fun p => p.2.2 *
              (fun x => x) (-(([0, 1, 2] : List ℚ).getD i 0 - p.2.1) ^ 2 /
                (2 * p.1 ^ 2)))).sum) :=
  ⟨⟨by decide, by decide⟩,
    (C8_get_acquisition_spec (fun x => x) [1, 2] [0, 5] [3, 4] [0, 1, 2] 6).1
      ⟨by decide, by decide⟩⟩

/-- SignalGenerator (signal_generator.h): a fixed element count chosen at
construction and a dictionary from signal names to sample buffers
(std::map modelled as an association list; keys are kept unique by the
add operations). -/
structure SignalGenerator where
  n_elements : ℕ
  data_dict : List (String × List ℚ)

/-- SignalGenerator::has_signal: name lookup in the dictionary. -/
def has_signal (g : SignalGenerator) (signal_name : String) : Bool :=
  (g.data_dict.lookup signal_name).isSome

/-- SignalGenerator::add_signal (signal_generator.cpp): duplicate names and
data of the wrong length raise before anything is inserted; the returned
pair is the store state after the call together with the error, if any. -/
def add_signal (g : SignalGenerator) (signal_name : String)
    (signal_data : List ℚ) : SignalGenerator × Option String :=
  if has_signal g signal_name then
    (g, some "Signal already exists.")
  else if signal_data.length ≠ g.n_elements then
    (g, some "Signal size does not match n_elements.")
  else
    ({ g with data_dict := g.data_dict ++ [(signal_name, signal_data)] },
      none)

/-- SignalGenerator::create_zero_signal (signal_generator.cpp): like
add_signal but inserting a zero vector of length n_elements. -/
def create_zero_signal (g : SignalGenerator) (signal_name : String) :
    SignalGenerator × Option String :=
  if has_signal g signal_name then
    (g, some "Signal already exists.")
  else
    ({ g with data_dict :=
        g.data_dict ++ [(signal_name, List.replicate g.n_elements 0)] },
      none)

theorem lookup_append_self (l : List (String × List ℚ)) (name : String)
    (v : List ℚ) (h : l.lookup name = none) :
    (l ++ [(name, v)]).lookup name = some v := by
  induction l with
  | nil => simp [List.lookup]
  | cons kv rest ih =>
    rw [List.cons_append]
    rw [List.lookup_cons] at h ⊢
    rcases hbe : (name == kv.1) with _ | _
    · rw [hbe] at h
      exact ih h
    · rw [hbe] at h
      exact absurd h (by simp)

theorem lookup_append_other (l : List (String × List ℚ))
    (name other : String) (v : List ℚ) (h : other ≠ name) :
    (l ++ [(name, v)]).lookup other = l.lookup other := by
  induction l with
  | nil =>
    simp only [List.nil_append, List.lookup_cons, List.lookup_nil]
    rw [show (other == name) = false from beq_eq_false_iff_ne.mpr h]
  | cons kv rest ih =>
    rw [List.cons_append]
    rw [List.lookup_cons, List.lookup_cons]
    rcases hbe : (other == kv.1) with _ | _
    · exact ih
    · rfl

/-- C10: adding a signal is atomic on failure — a duplicate name or a
length mismatch returns the error with the store exactly as it was — and
on success the new channel is present with its data (of length n_elements
for create_zero_signal), every previously stored channel is unchanged, and
n_elements is unchanged. -/
theorem C10_add_signal_atomic (g : SignalGenerator) (signal_name : String)
    (signal_data : List ℚ) :
    (has_signal g signal_name = true →
      add_signal g signal_name signal_data =
          (g, some "Signal already exists.") ∧
        create_zero_signal g signal_name =
          (g, some "Signal already exists.")) ∧
    (has_signal g signal_name = false →
      signal_data.length ≠ g.n_elements →
      add_signal g signal_name signal_data =
        (g, some "Signal size does not match n_elements.")) ∧
    (has_signal g signal_name = false →
      signal_data.length = g.n_elements →
      (add_signal g signal_name signal_data).2 = none ∧
      (add_signal g signal_name signal_data).1.n_elements = g.n_elements ∧
      (add_signal g signal_name signal_data).1.data_dict.lookup signal_name =
        some signal_data ∧
      ∀ other, other ≠ signal_name →
        (add_signal g signal_name signal_data).1.data_dict.lookup other =
          g.data_dict.lookup other) ∧
    (has_signal g signal_name = false →
      (create_zero_signal g signal_name).2 = none ∧
      (create_zero_signal g signal_name).1.n_elements = g.n_elements ∧
      (create_zero_signal g signal_name).1.data_dict.lookup signal_name =
        some (List.replicate g.n_elements 0) ∧
      ∀ other, other ≠ signal_name →
        (create_zero_signal g signal_name).1.data_dict.lookup other =
          g.data_dict.lookup other) := by
  have hnone : has_signal g signal_name = false →
      g.data_dict.lookup signal_name = none := by
    intro hf
    unfold has_signal at hf
    exact Option.not_isSome_iff_eq_none.mp (by rw [hf]; exact Bool.false_ne_true)
  refine ⟨?_, ?_, ?_, ?_⟩
  · intro ht
    unfold add_signal create_zero_signal
    rw [ht]
    exact ⟨rfl, rfl⟩
  · intro hf hlen
    unfold add_signal
    rw [hf]
    simp only [Bool.false_eq_true, if_false]
    rw [if_pos hlen]
  · intro hf hlen
    unfold add_signal
    rw [hf]
    simp only [Bool.false_eq_true, if_false]
    rw [if_neg (by omega)]
    refine ⟨rfl, rfl, ?_, ?_⟩
    · exact lookup_append_self g.data_dict signal_name signal_data (hnone hf)
    · intro other hother
      exact lookup_append_other g.data_dict signal_name other signal_data
        hother
  · intro hf
    unfold create_zero_signal
    rw [hf]
    simp only [Bool.false_eq_true, if_false]
    refine ⟨trivial, trivial, ?_, ?_⟩
    · exact lookup_append_self g.data_dict signal_name _ (hnone hf)
    · intro other hother
      exact lookup_append_other g.data_dict signal_name other _ hother

/-- C10 witness: adding a fresh channel of the right length to a concrete
store succeeds and stores its data. -/
theorem C10_witness :
    has_signal ⟨2, []⟩ "det" = false ∧ ([4, 5] : List ℚ).length = 2 ∧
      (add_signal ⟨2, []⟩ "det" [4, 5]).1.data_dict.lookup "det" =
        some [4, 5] :=
  ⟨by decide, by decide,
    ((C10_add_signal_atomic ⟨2, []⟩ "det" [4, 5]).2.2.1 (by decide)
      (by decide)).2.2.1⟩

end FlowCyPy
